import Mathlib

/-!
# Verification of the Harmony conversation codec (`openai-harmony-js`)

Shallow embedding of `src/index.ts`: the renderer, the strict token-stream
parser (`createParser` / `parseTokens` / `tryParseTokens`), the completion
tokenizer, the format detector, the channel extraction helpers, and the
streaming heuristic extractor (`HarmonyStreamParser`).

JavaScript strings are modelled as `List Char` (`Str`); JS `indexOf`-style
searches that return `-1` on failure are modelled with `Option Nat`;
exceptions are modelled with `Option`/`Except` results.
-/

namespace Harmony

/-- JavaScript strings, modelled as lists of characters. -/
abbrev Str := List Char

/-- Injection of Lean string literals into the `Str` model. -/
def strOf (s : String) : Str := s.data

/-- Model of `String.prototype.indexOf(sub)` starting from offset `k` (the
offset is only used to report the absolute index of the leftmost match).
Returns `none` where JS returns `-1`. -/
def idxOfAux (sub : Str) : Str → Nat → Option Nat
  | [], k => if sub = [] then some k else none
  | c :: rest, k =>
    if sub.isPrefixOf (c :: rest) then some k else idxOfAux sub rest (k + 1)

/-- Model of JS `s.indexOf(sub)`. -/
def idxOf (s sub : Str) : Option Nat := idxOfAux sub s 0

/-- Model of JS `s.indexOf(sub, from)` (leftmost occurrence at index ≥ `from`). -/
def idxOfFrom (s sub : Str) (start : Nat) : Option Nat :=
  (idxOfAux sub (s.drop start) 0).map (start + ·)

/-- `sub` occurs in `s` at index `p`. -/
def occursAt (s sub : Str) (p : Nat) : Bool := sub.isPrefixOf (s.drop p)

/-- Model of JS `s.lastIndexOf(sub)`: the greatest index at which `sub` occurs. -/
def lastIdxOf (s sub : Str) : Option Nat :=
  (List.range (s.length + 1)).foldl
    (fun acc p => if occursAt s sub p then some p else acc) none

/-- Model of JS `s.includes(sub)`. -/
def strIncludes (s sub : Str) : Bool :=
  (List.range (s.length + 1)).any (occursAt s sub)

/-- Number of indices at which `sub` occurs in `s`.  For the marker strings
used by this library (e.g. `"<|start|>"`), which contain `'<'` only at
position 0 and hence cannot overlap themselves, this equals the number of
matches of the corresponding global regex (`s.match(/…/g) ?? []).length`. -/
def countOccs (s sub : Str) : Nat :=
  (List.range (s.length + 1)).countP (occursAt s sub)

/-! ## Basic lemmas about the string primitives -/

theorem isPrefixOf_append_self (pre s : Str) :
    pre.isPrefixOf (pre ++ s) = true := by
  simp [List.isPrefixOf_iff_prefix]

theorem ne_cons_of_head {a b : Char} (xs ys : List Char) (h : a ≠ b) :
    a :: xs ≠ b :: ys := by
  intro hEq
  injection hEq with h1 _
  exact h h1

/-- An occurrence survives appending on the right. -/
theorem occursAt_append_right {s sub : Str} {p : Nat} (t : Str)
    (h : occursAt s sub p = true) : occursAt (s ++ t) sub p = true := by
  unfold occursAt at h ⊢
  rw [List.isPrefixOf_iff_prefix] at h ⊢
  calc sub <+: s.drop p := h
    _ <+: s.drop p ++ (t.drop (p - s.length)) := List.prefix_append _ _
    _ = (s ++ t).drop p := (List.drop_append_eq_append_drop).symm

theorem strIncludes_append_right {s sub : Str} (t : Str)
    (h : strIncludes s sub = true) : strIncludes (s ++ t) sub = true := by
  unfold strIncludes at h ⊢
  rw [List.any_eq_true] at h ⊢
  obtain ⟨p, hp, hocc⟩ := h
  refine ⟨p, ?_, occursAt_append_right t hocc⟩
  rw [List.mem_range] at hp ⊢
  simp only [List.length_append]
  omega

theorem countOccs_eq_zero_of_not_includes {s sub : Str}
    (h : strIncludes s sub = false) : countOccs s sub = 0 := by
  unfold countOccs
  unfold strIncludes at h
  rw [List.countP_eq_zero]
  intro p hp
  intro hocc
  rw [List.any_eq_false] at h
  exact h p hp hocc

theorem strIncludes_false_iff {s sub : Str} :
    strIncludes s sub = false ↔ ∀ p, occursAt s sub p = false := by
  constructor
  · intro h p
    unfold strIncludes at h
    rw [List.any_eq_false] at h
    by_cases hp : p < s.length + 1
    · simpa using h p (List.mem_range.mpr hp)
    · unfold occursAt
      have hdrop : s.drop p = [] := List.drop_eq_nil_of_le (by omega)
      rw [hdrop]
      cases hsub : sub with
      | nil =>
        have := h 0 (List.mem_range.mpr (by omega))
        unfold occursAt at this
        rw [hsub] at this
        simp [List.isPrefixOf] at this
      | cons a as => simp [List.isPrefixOf]
  · intro h
    unfold strIncludes
    rw [List.any_eq_false]
    intro p _
    simp [h p]

/-- Generic characterization of the `lastIndexOf`-style fold: the result is
`some` exactly when the predicate holds somewhere in the scanned list (or the
accumulator was already `some`). -/
theorem foldl_option_isSome (f : Nat → Bool) (l : List Nat) (init : Option Nat) :
    (l.foldl (fun acc p => if f p then some p else acc) init).isSome =
      (l.any f || init.isSome) := by
  induction l generalizing init with
  | nil => simp
  | cons a as ih =>
    simp only [List.foldl_cons, List.any_cons]
    by_cases h : f a = true
    · rw [h, if_pos rfl, ih]
      simp
    · rw [Bool.not_eq_true] at h
      rw [h, if_neg (by simp), ih]
      simp

theorem foldl_option_sat (f : Nat → Bool) (l : List Nat) (init : Option Nat)
    (q : Nat) (h : l.foldl (fun acc p => if f p then some p else acc) init = some q) :
    f q = true ∨ init = some q := by
  induction l generalizing init with
  | nil => right; simpa using h
  | cons a as ih =>
    simp only [List.foldl_cons] at h
    by_cases hfa : f a = true
    · rw [hfa, if_pos rfl] at h
      rcases ih _ h with h1 | h2
      · exact Or.inl h1
      · injection h2 with h2
        subst h2
        exact Or.inl hfa
    · rw [Bool.not_eq_true] at hfa
      rw [hfa, if_neg (by simp)] at h
      exact ih _ h

theorem lastIdxOf_isSome_iff (s sub : Str) :
    (lastIdxOf s sub).isSome = strIncludes s sub := by
  unfold lastIdxOf strIncludes
  rw [foldl_option_isSome]
  simp

theorem lastIdxOf_eq_none_of_not_includes {s sub : Str}
    (h : strIncludes s sub = false) : lastIdxOf s sub = none := by
  have := lastIdxOf_isSome_iff s sub
  rw [h] at this
  exact Option.not_isSome_iff_eq_none.mp (by simp [this])

/-- `idxOfAux` only reports indices at or beyond its offset accumulator. -/
theorem idxOfAux_ge (sub : Str) :
    ∀ (s : Str) (k j : Nat), idxOfAux sub s k = some j → k ≤ j := by
  intro s
  induction s with
  | nil =>
    intro k j h
    unfold idxOfAux at h
    by_cases hsub : sub = []
    · rw [if_pos hsub] at h
      injection h with h
      omega
    · rw [if_neg hsub] at h
      exact absurd h (by simp)
  | cons c rest ih =>
    intro k j h
    unfold idxOfAux at h
    by_cases hpre : sub.isPrefixOf (c :: rest) = true
    · rw [if_pos hpre] at h
      injection h with h
      omega
    · rw [if_neg hpre] at h
      have := ih (k + 1) j h
      omega

theorem strOf_colon : strOf ":" = [':'] := rfl

/-- Computation rule: the leftmost `':'` in `pre ++ ':' :: suf` sits right
after `pre` when `pre` itself is colon-free. -/
theorem idxOfAux_colon (suf : Str) :
    ∀ (pre : Str) (k : Nat), ':' ∉ pre →
      idxOfAux (strOf ":") (pre ++ ':' :: suf) k = some (k + pre.length) := by
  intro pre
  induction pre with
  | nil =>
    intro k _
    simp [idxOfAux, strOf_colon, List.isPrefixOf]
  | cons c rest ih =>
    intro k hmem
    have hc : c ≠ ':' := fun h => hmem (by simp [h])
    have hnp : ¬((strOf ":").isPrefixOf (c :: (rest ++ ':' :: suf)) = true) := by
      simp [strOf_colon, List.isPrefixOf]
      exact fun h => hc h.symm
    simp only [List.cons_append]
    rw [idxOfAux, if_neg hnp, ih (k + 1) (fun h => hmem (by simp [h]))]
    congr 1
    simp
    omega

/-! ## JSON values

The library stores tool-call arguments as an opaque JSON-serializable value
(`arguments: unknown`) and moves them through the platform's
`JSON.stringify` / `JSON.parse`.  We model serializable values with the
`Json` inductive below.  Numbers are modelled as integers (the claims under
verification never depend on fractional numbers; numeric tokens with a
fraction or exponent are rejected by the modelled parser, which makes the
round-trip hypothesis simply unavailable for them rather than wrong). -/

inductive Json where
  | null
  | bool (b : Bool)
  | num (n : Int)
  | str (s : Str)
  | arr (elems : List Json)
  | obj (fields : List (Str × Json))

/-- Decimal digits of an integer, as JS prints integral numbers. -/
def intToStr (i : Int) : Str :=
  match i with
  | .ofNat n => Nat.toDigits 10 n
  | .negSucc n => '-' :: Nat.toDigits 10 (n + 1)

/-- Hexadecimal digit character (lowercase), for `\u00XX` escapes. -/
def hexDigit (n : Nat) : Char :=
  if n < 10 then Char.ofNat ('0'.toNat + n) else Char.ofNat ('a'.toNat + (n - 10))

/-- Escaping of one character inside a JSON string literal, modelled from
`JSON.stringify`'s quoting of strings. -/
def escapeJsonChar (c : Char) : Str :=
  if c = '"' then ['\\', '"']
  else if c = '\\' then ['\\', '\\']
  else if c = '\n' then ['\\', 'n']
  else if c = '\r' then ['\\', 'r']
  else if c = '\t' then ['\\', 't']
  else if c = '\x08' then ['\\', 'b']
  else if c = '\x0c' then ['\\', 'f']
  else if c.toNat < 32 then
    ['\\', 'u', '0', '0', hexDigit (c.toNat / 16), hexDigit (c.toNat % 16)]
  else [c]

/-- A JSON string literal: quotes around the escaped characters. -/
def quoteJsonStr (s : Str) : Str :=
  '"' :: s.foldr (fun c acc => escapeJsonChar c ++ acc) ['"']

/-- Comma-separated concatenation. -/
def joinComma : List Str → Str
  | [] => []
  | [x] => x
  | x :: y :: rest => x ++ ',' :: joinComma (y :: rest)

mutual

/-- Model of the platform `JSON.stringify` on serializable values. -/
def Json.stringify : Json → Str
  | .null => strOf "null"
  | .bool true => strOf "true"
  | .bool false => strOf "false"
  | .num i => intToStr i
  | .str s => quoteJsonStr s
  | .arr xs => '[' :: joinComma (stringifyList xs) ++ [']']
  | .obj kvs => '\x7b' :: joinComma (stringifyMembers kvs) ++ ['\x7d']

/-- Serialized forms of the elements of a JSON array. -/
def stringifyList : List Json → List Str
  | [] => []
  | x :: xs => Json.stringify x :: stringifyList xs

/-- Serialized `key:value` forms of the members of a JSON object. -/
def stringifyMembers : List (Str × Json) → List Str
  | [] => []
  | kv :: rest => (quoteJsonStr kv.1 ++ ':' :: Json.stringify kv.2) :: stringifyMembers rest

end

/-- The four JSON whitespace characters. -/
def isJsonWs (c : Char) : Bool := c = ' ' || c = '\t' || c = '\n' || c = '\r'

def jsonSkipWs (s : Str) : Str := s.dropWhile isJsonWs

def isDigitCh (c : Char) : Bool := '0' ≤ c && c ≤ '9'

def digitsToNat (ds : Str) : Nat :=
  ds.foldl (fun acc c => acc * 10 + (c.toNat - '0'.toNat)) 0

def hexVal (c : Char) : Option Nat :=
  if '0' ≤ c ∧ c ≤ '9' then some (c.toNat - '0'.toNat)
  else if 'a' ≤ c ∧ c ≤ 'f' then some (c.toNat - 'a'.toNat + 10)
  else if 'A' ≤ c ∧ c ≤ 'F' then some (c.toNat - 'A'.toNat + 10)
  else none

/-- Body of a JSON string literal (after the opening quote): returns the
decoded characters and the remainder after the closing quote. -/
def jsonParseStrBody : Str → Option (Str × Str)
  | [] => none
  | '"' :: rest => some ([], rest)
  | '\\' :: 'u' :: h1 :: h2 :: h3 :: h4 :: rest =>
      match hexVal h1, hexVal h2, hexVal h3, hexVal h4 with
      | some a, some b, some c, some d =>
          (jsonParseStrBody rest).map (fun p =>
            (Char.ofNat (((a * 16 + b) * 16 + c) * 16 + d) :: p.1, p.2))
      | _, _, _, _ => none
  | '\\' :: e :: rest =>
      let dec : Option Char :=
        if e = '"' then some '"'
        else if e = '\\' then some '\\'
        else if e = '/' then some '/'
        else if e = 'b' then some '\x08'
        else if e = 'f' then some '\x0c'
        else if e = 'n' then some '\n'
        else if e = 'r' then some '\r'
        else if e = 't' then some '\t'
        else none
      match dec with
      | some c => (jsonParseStrBody rest).map (fun p => (c :: p.1, p.2))
      | none => none
  | c :: rest => (jsonParseStrBody rest).map (fun p => (c :: p.1, p.2))

mutual

/-- Fuel-indexed recursive-descent JSON parser, modelling the platform
`JSON.parse` (restricted to integral numbers, see `Json`). -/
def jsonParseVal : Nat → Str → Option (Json × Str)
  | 0, _ => none
  | fuel + 1, s =>
    match jsonSkipWs s with
    | 'n' :: 'u' :: 'l' :: 'l' :: rest => some (.null, rest)
    | 't' :: 'r' :: 'u' :: 'e' :: rest => some (.bool true, rest)
    | 'f' :: 'a' :: 'l' :: 's' :: 'e' :: rest => some (.bool false, rest)
    | '"' :: rest => (jsonParseStrBody rest).map (fun p => (.str p.1, p.2))
    | '[' :: rest =>
        (match jsonSkipWs rest with
         | ']' :: rest' => some (.arr [], rest')
         | _ => (jsonParseElems fuel rest).map (fun p => (.arr p.1, p.2)))
    | '\x7b' :: rest =>
        (match jsonSkipWs rest with
         | '\x7d' :: rest' => some (.obj [], rest')
         | _ => (jsonParseMembers fuel rest).map (fun p => (.obj p.1, p.2)))
    | '-' :: rest =>
        let ds := rest.takeWhile isDigitCh
        if ds = [] then none
        else some (.num (-(digitsToNat ds : Int)), rest.drop ds.length)
    | c :: rest =>
        if isDigitCh c then
          let ds := rest.takeWhile isDigitCh
          some (.num (digitsToNat (c :: ds)), rest.drop ds.length)
        else none
    | [] => none

/-- One-or-more comma-separated array elements, then `']'`. -/
def jsonParseElems : Nat → Str → Option (List Json × Str)
  | 0, _ => none
  | fuel + 1, s =>
    match jsonParseVal fuel s with
    | none => none
    | some (v, rest) =>
      match jsonSkipWs rest with
      | ',' :: rest' =>
          (jsonParseElems fuel rest').map (fun p => (v :: p.1, p.2))
      | ']' :: rest' => some ([v], rest')
      | _ => none

/-- One-or-more comma-separated object members, then `'}'`. -/
def jsonParseMembers : Nat → Str → Option (List (Str × Json) × Str)
  | 0, _ => none
  | fuel + 1, s =>
    match jsonSkipWs s with
    | '"' :: rest =>
      match jsonParseStrBody rest with
      | none => none
      | some (key, rest') =>
        match jsonSkipWs rest' with
        | ':' :: rest'' =>
          match jsonParseVal fuel rest'' with
          | none => none
          | some (v, rest3) =>
            match jsonSkipWs rest3 with
            | ',' :: rest4 =>
                (jsonParseMembers fuel rest4).map (fun p => ((key, v) :: p.1, p.2))
            | '\x7d' :: rest4 => some ([(key, v)], rest4)
            | _ => none
        | _ => none
    | _ => none

end

/-- Model of the platform `JSON.parse`: a complete value with only trailing
whitespace.  Returns `none` where `JSON.parse` throws a `SyntaxError`. -/
def Json.parse (s : Str) : Option Json :=
  match jsonParseVal (s.length + 1) s with
  | some (v, rest) => if jsonSkipWs rest = [] then some v else none
  | none => none

/-! ## Data model (`HarmonyDelimiters`, roles, channels, chunks, messages) -/

/-- Marker strings delimiting roles and payloads (`HarmonyDelimiters`).
The TS field `end` is a Lean keyword and is rendered here as `endd`. -/
structure HarmonyDelimiters where
  start : Str
  message : Str
  endd : Str

/-- `DEFAULT_DELIMS` from the source. -/
def DEFAULT_DELIMS : HarmonyDelimiters :=
  ⟨strOf "<|start|>", strOf "<|message|>", strOf "<|end|>"⟩

/-- The fixed, non-configurable channel-declaration marker `"<|channel|>"`. -/
def channelMarker : Str := strOf "<|channel|>"

/-- Closed role enumeration (`HarmonyRole`). -/
inductive HarmonyRole where
  | system | developer | user | assistant | tool
deriving DecidableEq

/-- The string form of a role, as stored in the TS union type. -/
def roleStr : HarmonyRole → Str
  | .system => strOf "system"
  | .developer => strOf "developer"
  | .user => strOf "user"
  | .assistant => strOf "assistant"
  | .tool => strOf "tool"

/-- `isHarmonyRole`, refined to also produce the typed role on success. -/
def roleOfStr? (s : Str) : Option HarmonyRole :=
  if s = strOf "system" then some .system
  else if s = strOf "developer" then some .developer
  else if s = strOf "user" then some .user
  else if s = strOf "assistant" then some .assistant
  else if s = strOf "tool" then some .tool
  else none

/-- Closed structured-channel enumeration (`HarmonyChannel`). -/
inductive HarmonyChannel where
  | message | reasoning | tool | function | error
deriving DecidableEq

def channelStr : HarmonyChannel → Str
  | .message => strOf "message"
  | .reasoning => strOf "reasoning"
  | .tool => strOf "tool"
  | .function => strOf "function"
  | .error => strOf "error"

/-- `isHarmonyChannel`, refined to also produce the typed channel. -/
def channelOfStr? (s : Str) : Option HarmonyChannel :=
  if s = strOf "message" then some .message
  else if s = strOf "reasoning" then some .reasoning
  else if s = strOf "tool" then some .tool
  else if s = strOf "function" then some .function
  else if s = strOf "error" then some .error
  else none

/-- `HarmonyToolCall`; the TS field `namespace` is a Lean keyword and is
rendered here as `nmspace`. -/
structure HarmonyToolCall where
  nmspace : Str
  name : Str
  arguments : Json

/-- `HarmonyContentChunk`: a `tool_call` chunk's channel is invariantly the
literal `"tool"` in TS, so it carries no channel field here. -/
inductive HarmonyContentChunk where
  | text (channel : HarmonyChannel) (text : Str)
  | tool_call (call : HarmonyToolCall)

structure HarmonyMessage where
  role : HarmonyRole
  content : List HarmonyContentChunk

structure HarmonyConversation where
  messages : List HarmonyMessage

/-- `HarmonyError` (`code`, `message`, `details`); every `details` record the
source constructs has only string values. -/
structure HarmonyError where
  code : Str
  msg : Str
  details : List (Str × Str)

/-! ## Renderer (`renderConversation`) -/

/-- The payload token pushed for one content chunk. -/
def chunkPayloadToken : HarmonyContentChunk → Str
  | .text channel text => strOf "text:" ++ channelStr channel ++ ':' :: text
  | .tool_call call =>
      strOf "tool:" ++ call.nmspace ++ ':' :: call.name ++ ':' :: Json.stringify call.arguments

/-- The tokens pushed for one message: start+role, then per chunk the message
marker followed by its payload token, then the end marker. -/
def messageTokens (delims : HarmonyDelimiters) (m : HarmonyMessage) : List Str :=
  (delims.start ++ roleStr m.role)
    :: m.content.flatMap (fun c => [delims.message, chunkPayloadToken c]) ++ [delims.endd]

/-- `renderConversation` (the `options.delimiters` default is expressed by
passing `DEFAULT_DELIMS`). -/
def renderConversation (conversation : HarmonyConversation)
    (delims : HarmonyDelimiters) : List Str :=
  conversation.messages.flatMap (messageTokens delims)

/-! ## Strict token-stream parser (`createParser`) -/

/-- `ParseState`: the optional TS fields start out `undefined`/falsy, modelled
by `none` / `false`. -/
structure ParseState where
  messages : List HarmonyMessage
  current : Option HarmonyMessage
  lastStreamingChannel : Option Str
  expectingPayload : Bool

def initParseState : ParseState := ⟨[], none, none, false⟩

/-- One `push(token, delimiters)` call on the mutable parser.  A thrown
`HarmonyError` is modelled as `some` error in the second component; the first
component is the parser state after the call — every `throw` in the source
happens before any state mutation, which the translation makes literal by
returning the input state alongside each error. -/
def pushToken (st : ParseState) (token : Str) (delims : HarmonyDelimiters) :
    ParseState × Option HarmonyError :=
  if delims.start.isPrefixOf token then
    let roleRaw := token.drop delims.start.length
    match roleOfStr? roleRaw with
    | none =>
        (st, some ⟨strOf "INVALID_ROLE", strOf "Unknown role: " ++ roleRaw,
          [(strOf "token", token), (strOf "role", roleRaw)]⟩)
    | some role =>
        let msgs := match st.current with
          | some m => st.messages ++ [m]
          | none => st.messages
        (⟨msgs, some ⟨role, []⟩, none, false⟩, none)
  else if channelMarker.isPrefixOf token then
    let channelName := token.drop channelMarker.length
    ({ st with lastStreamingChannel :=
        if 0 < channelName.length then some channelName else st.lastStreamingChannel }, none)
  else if token = delims.message then
    ({ st with expectingPayload := true }, none)
  else if token = delims.endd then
    (match st.current with
     | some m =>
         ⟨st.messages ++ [m], none, none, false⟩
     | none => { st with lastStreamingChannel := none, expectingPayload := false },
     none)
  else
    match st.current with
    | none =>
        (st, some ⟨strOf "UNEXPECTED_TOKEN",
          strOf "Content outside of a message: " ++ token, [(strOf "token", token)]⟩)
    | some cur =>
      if (strOf "text:").isPrefixOf token then
        let after := token.drop (strOf "text:").length
        match idxOf after (strOf ":") with
        | none =>
            (st, some ⟨strOf "INVALID_TEXT", strOf "Missing channel in text token",
              [(strOf "token", token)]⟩)
        | some sep =>
          let channelRaw := after.take sep
          let text := after.drop (sep + 1)
          match channelOfStr? channelRaw with
          | none =>
              (st, some ⟨strOf "INVALID_CHANNEL", strOf "Unknown channel: " ++ channelRaw,
                [(strOf "token", token), (strOf "channel", channelRaw)]⟩)
          | some channel =>
              ({ st with
                  current := some ⟨cur.role, cur.content ++ [.text channel text]⟩,
                  expectingPayload := false }, none)
      else if (strOf "tool:").isPrefixOf token then
        let rest := token.drop (strOf "tool:").length
        let first := idxOf rest (strOf ":")
        let second := idxOfFrom rest (strOf ":")
          (match first with | some f => f + 1 | none => 0)
        match first, second with
        | some f, some s2 =>
          let nmspace := rest.take f
          let name := (rest.take s2).drop (f + 1)
          let argsRaw := rest.drop (s2 + 1)
          match Json.parse argsRaw with
          | none =>
              (st, some ⟨strOf "INVALID_TOOL_ARGS", strOf "Invalid JSON args",
                [(strOf "token", token), (strOf "args", argsRaw)]⟩)
          | some parsed =>
              ({ st with
                  current := some ⟨cur.role, cur.content ++ [.tool_call ⟨nmspace, name, parsed⟩]⟩,
                  expectingPayload := false }, none)
        | _, _ =>
            (st, some ⟨strOf "INVALID_TOOL", strOf "Malformed tool token: missing separators",
              [(strOf "token", token)]⟩)
      else if st.expectingPayload ∧ st.lastStreamingChannel.isSome then
        ({ st with expectingPayload := false }, none)
      else
        (st, some ⟨strOf "UNKNOWN_TOKEN", strOf "Unknown token prefix: " ++ token,
          [(strOf "token", token)]⟩)

/-- `finish()`: closes any still-open message and returns the conversation. -/
def finishParse (st : ParseState) : HarmonyConversation :=
  match st.current with
  | some m => ⟨st.messages ++ [m]⟩
  | none => ⟨st.messages⟩

/-- The loop body of `parseTokens`: pushes tokens until one throws — the
exception aborts the loop — and otherwise finishes. -/
def parseTokensGo (delims : HarmonyDelimiters) :
    ParseState → List Str → Except HarmonyError HarmonyConversation
  | st, [] => .ok (finishParse st)
  | st, t :: ts =>
    match pushToken st t delims with
    | (st', none) => parseTokensGo delims st' ts
    | (_, some e) => .error e

/-- `parseTokens` (throwing entry point, modelled with `Except`). -/
def parseTokens (tokens : List Str) (delims : HarmonyDelimiters) :
    Except HarmonyError HarmonyConversation :=
  parseTokensGo delims initParseState tokens

/-- The discriminated result type of `tryParseTokens`. -/
inductive TryParseResult where
  | ok (value : HarmonyConversation)
  | err (error : HarmonyError)

/-- `tryParseTokens`: the same parse behind a tagged result.  The catch-arm
for non-`HarmonyError` exceptions in the source is unreachable in the model
because `parseTokens` only ever throws `HarmonyError` values. -/
def tryParseTokens (tokens : List Str) (delims : HarmonyDelimiters) : TryParseResult :=
  match parseTokens tokens delims with
  | .ok value => .ok value
  | .error e => .err e

/-! ## Tokenizer (`tokenizeCompletionString`) -/

/-- JS `/[a-z]/` on one character. -/
def isLowerAlpha (c : Char) : Bool := 'a' ≤ c && c ≤ 'z'

/-- `findNextDelimiterIndex` relative to the current suffix: the smallest
occurrence index of any delimiter, or the suffix length when none occurs. -/
def findNextDelimiterIdx (s : Str) (delims : HarmonyDelimiters) : Nat :=
  match [idxOf s delims.start, idxOf s delims.message, idxOf s delims.endd].filterMap id with
  | [] => s.length
  | c :: cs => cs.foldl Nat.min c

/-- The scan loop of `tokenizeCompletionString`, operating on the remaining
suffix of the input.  The loop index `i` of the source always advances by at
least one while the delimiters are non-empty, so fuel `input.length + 1`
reproduces the full scan (`tokenizeCompletionString_fuel` below). -/
def tokenizeAux (delims : HarmonyDelimiters) : Nat → Str → List Str
  | 0, _ => []
  | fuel + 1, s =>
    if s = [] then []
    else if delims.start.isPrefixOf s then
      s.take (delims.start.length + ((s.drop delims.start.length).takeWhile isLowerAlpha).length)
        :: tokenizeAux delims fuel
          (s.drop (delims.start.length + ((s.drop delims.start.length).takeWhile isLowerAlpha).length))
    else if delims.message.isPrefixOf s then
      delims.message :: tokenizeAux delims fuel (s.drop delims.message.length)
    else if delims.endd.isPrefixOf s then
      delims.endd :: tokenizeAux delims fuel (s.drop delims.endd.length)
    else
      (if s.take (findNextDelimiterIdx s delims) = [] then []
       else [s.take (findNextDelimiterIdx s delims)]) ++
        tokenizeAux delims fuel (s.drop (findNextDelimiterIdx s delims))

/-- `tokenizeCompletionString`. -/
def tokenizeCompletionString (input : Str) (delims : HarmonyDelimiters) : List Str :=
  tokenizeAux delims (input.length + 1) input

/-! ## Format detector (`isHarmonyFormat`) -/

/-- The shapes a JS caller can pass for the optional `input` argument:
`undefined`, `null`, a string, or any non-string value. -/
inductive JsInput where
  | undef
  | null
  | str (s : Str)
  | nonString

/-- `isHarmonyFormat`. -/
def isHarmonyFormat (input : JsInput) (delims : HarmonyDelimiters) : Bool :=
  match input with
  | .str s =>
    if s.length = 0 then false
    else
      let hasStart := strIncludes s delims.start
      let hasChannel := strIncludes s channelMarker
      let hasMessage := strIncludes s delims.message
      let hasEnd := strIncludes s delims.endd
      (hasStart || hasChannel) && hasChannel && (hasMessage || hasEnd)
  | _ => false

/-! ## Channel extraction helpers (`safeExtractChannel`, `extractFinalContent`) -/

/-- JS `\s` membership, restricted to the ASCII whitespace characters that
can actually appear here. -/
def isJsSpace (c : Char) : Bool :=
  c = ' ' || c = '\t' || c = '\n' || c = '\r' || c = Char.ofNat 11 || c = Char.ofNat 12

/-- JS `String.prototype.trim`. -/
def jsTrim (s : Str) : Str :=
  ((s.dropWhile isJsSpace).reverse.dropWhile isJsSpace).reverse

/-- `text.replace(/<\|(start|message|end|channel)\|>/g, "")`: the four
complete markers each contain `'<'` only at their head, so the global
replacement is the left-to-right scan that skips a marker wherever one
starts and keeps every other character. -/
def removeCompleteMarkersAux : Nat → Str → Str
  | 0, s => s
  | _ + 1, [] => []
  | fuel + 1, c :: rest =>
    if (strOf "<|start|>").isPrefixOf (c :: rest) then
      removeCompleteMarkersAux fuel ((c :: rest).drop 9)
    else if (strOf "<|message|>").isPrefixOf (c :: rest) then
      removeCompleteMarkersAux fuel ((c :: rest).drop 11)
    else if (strOf "<|end|>").isPrefixOf (c :: rest) then
      removeCompleteMarkersAux fuel ((c :: rest).drop 7)
    else if (strOf "<|channel|>").isPrefixOf (c :: rest) then
      removeCompleteMarkersAux fuel ((c :: rest).drop 11)
    else c :: removeCompleteMarkersAux fuel rest

def removeCompleteMarkers (s : Str) : Str := removeCompleteMarkersAux s.length s

/-- JS `/[a-zA-Z]/` on one character. -/
def isAsciiLetter (c : Char) : Bool :=
  ('a' ≤ c && c ≤ 'z') || ('A' ≤ c && c ≤ 'Z')

/-- `text.replace(/<\|[a-zA-Z]*$/g, "")`: the pattern is anchored at the end
of the string, so the replacement removes everything from the leftmost
position at which `"<|"` is followed only by ASCII letters up to the end. -/
def stripTrailingFragment (s : Str) : Str :=
  match (List.range s.length).find? (fun p =>
      (strOf "<|").isPrefixOf (s.drop p) && (s.drop (p + 2)).all isAsciiLetter) with
  | some p => s.take p
  | none => s

/-- `safeExtractChannel`. -/
def safeExtractChannel (input : Str) (channel : Str) : Str :=
  let channelTag := channelMarker ++ channel
  match lastIdxOf input channelTag with
  | none => []
  | some idxChannel =>
    match idxOfFrom input (strOf "<|message|>") idxChannel with
    | none => []
    | some idxMsg =>
      let start := idxMsg + (strOf "<|message|>").length
      let nextEnd := idxOfFrom input (strOf "<|end|>") start
      let nextStart := idxOfFrom input (strOf "<|start|>") start
      let nextChannel := idxOfFrom input (strOf "<|channel|>") start
      let stop := input.length
      let stop := match nextEnd with | some i => Nat.min stop i | none => stop
      let stop := match nextStart with | some i => Nat.min stop i | none => stop
      let stop := match nextChannel with | some i => Nat.min stop i | none => stop
      let text := (input.take stop).drop start
      jsTrim (stripTrailingFragment (removeCompleteMarkers text))

/-- `extractFinalContent` (its internal `isHarmonyFormat` call uses the
default delimiters, as in the source). -/
def extractFinalContent (input : Str) : Str :=
  if isHarmonyFormat (.str input) DEFAULT_DELIMS then
    let finalText := safeExtractChannel input (strOf "final")
    if 0 < finalText.length then finalText
    else
      let commentaryText := safeExtractChannel input (strOf "commentary")
      if 0 < commentaryText.length then commentaryText
      else []
  else input

/-! ## Streaming heuristic extractor (`HarmonyStreamParser`)

The extractor works on raw buffers with the fixed markers `"<|start|>"`,
`"<|message|>"`, `"<|end|>"`, `"<|channel|>"`. -/

/-- `StreamParseResult`. -/
structure StreamParseResult where
  isComplete : Bool
  currentAnalysis : Str
  currentFinal : Str
  currentCommentary : Str
  lastChannelDetected : Option Str
  bufferContent : Str
deriving DecidableEq

/-- The mutable fields of a `HarmonyStreamParser` instance. -/
structure StreamState where
  buffer : Str
  currentChannel : Option Str
deriving DecidableEq

/-- A fresh `new HarmonyStreamParser()`. -/
def initStream : StreamState := ⟨[], none⟩

/-- `reset()`. -/
def resetStream (_st : StreamState) : StreamState := ⟨[], none⟩

/-- `getBuffer()`. -/
def getBuffer (st : StreamState) : Str := st.buffer

/-- A character matchable by the capture class `[^<\s]` of the
channel-detection regex. -/
def isChanNameChar (c : Char) : Bool := !(c = '<') && !(isJsSpace c)

/-- The regex `/<\|channel\|>([^<\s]+)/g` matches at index `p` iff the marker
occurs there followed by at least one capturable character.  Because the
marker contains `'<'` only at its head and the capture class excludes `'<'`,
no match can start inside another, so the global match list is exactly the
set of such indices in increasing order. -/
def chanMatchAt (s : Str) (p : Nat) : Bool :=
  channelMarker.isPrefixOf (s.drop p) &&
    (match s.drop (p + channelMarker.length) with
     | c :: _ => isChanNameChar c
     | [] => false)

/-- Index of the last match of the channel-detection regex. -/
def lastChanIdx (s : Str) : Option Nat :=
  (List.range (s.length + 1)).foldl
    (fun acc p => if chanMatchAt s p then some p else acc) none

/-- `detectCurrentChannel()`: on a match, the captured group is the greedy
run of `[^<\s]` characters after the last marker; otherwise the previous
value is kept. -/
def detectChannel (buffer : Str) (old : Option Str) : Option Str :=
  match lastChanIdx buffer with
  | some p =>
    if 0 < ((buffer.drop (p + channelMarker.length)).takeWhile isChanNameChar).length
    then some ((buffer.drop (p + channelMarker.length)).takeWhile isChanNameChar)
    else old
  | none => old

/-- The channel the detector computes from a buffer alone (starting from an
absent previous value). -/
def chanOfBuffer (buffer : Str) : Option Str := detectChannel buffer none

/-- Leftmost position (and kind) of the next body terminator: a
channel-declaration marker (kept, via lookahead) or an end marker
(consumed).  `true` tags the channel-marker case. -/
def stopScan : Str → Nat → Option (Nat × Bool)
  | [], _ => none
  | c :: rest, k =>
    if channelMarker.isPrefixOf (c :: rest) then some (k, true)
    else if (strOf "<|end|>").isPrefixOf (c :: rest) then some (k, false)
    else stopScan rest (k + 1)

/-- Scan loop of the per-channel body regex
`/<\|channel\|>NAME<\|message\|>(.*?)(?:(?=<\|channel\|>)|<\|end\|>|$)/gs`:
find the literal `lit = "<|channel|>" ++ NAME ++ "<|message|>"`, then the lazy
body runs to the first channel marker (not consumed), the first end marker
(consumed), or the end of the input.  Each step consumes at least the
literal, so fuel `|input| + 1` reproduces the full global scan. -/
def collectBodiesAux (lit : Str) : Nat → Str → List Str
  | 0, _ => []
  | fuel + 1, s =>
    match idxOfAux lit s 0 with
    | none => []
    | some q =>
      let after := s.drop (q + lit.length)
      match stopScan after 0 with
      | some (e, true) => after.take e :: collectBodiesAux lit fuel (after.drop e)
      | some (e, false) =>
          after.take e :: collectBodiesAux lit fuel (after.drop (e + (strOf "<|end|>").length))
      | none => [after]

/-- All (raw) bodies for one channel name within `input`. -/
def channelBodies (input : Str) (channel : Str) : List Str :=
  collectBodiesAux (channelMarker ++ channel ++ strOf "<|message|>") (input.length + 1) input

/-- `collectChannelText`: trimmed non-empty bodies, joined with `"\n"`. -/
def collectChannelText (input : Str) (channel : Str) : Str :=
  let parts := (channelBodies input channel).map jsTrim |>.filter (fun t => t ≠ [])
  match parts with
  | [] => []
  | p :: ps => ps.foldl (fun acc t => acc ++ '\n' :: t) p

/-- `collectLastChannelText`: the last trimmed non-empty body, or empty. -/
def collectLastChannelText (input : Str) (channel : Str) : Str :=
  ((channelBodies input channel).map jsTrim |>.filter (fun t => t ≠ [])).getLastD []

/-- `extractIncompleteContentFromWindow`. -/
def extractIncompleteContent (win : Str) : Str :=
  match lastIdxOf win (strOf "<|message|>") with
  | none => []
  | some idxBase =>
    let after := win.drop (idxBase + (strOf "<|message|>").length)
    if strIncludes after (strOf "<|end|>") then []
    else jsTrim after

/-- The snapshot computed by `parseCurrentBuffer` after `detectCurrentChannel`
has run; `ch` is the updated `this.currentChannel`. -/
def buildSnapshot (buffer : Str) (ch : Option Str) : StreamParseResult :=
  let lastStartIdx := lastIdxOf buffer (strOf "<|start|>")
  let windowStart := match lastStartIdx with | some i => i | none => 0
  let endAfterStartIdx := idxOfFrom buffer (strOf "<|end|>") windowStart
  let windowEnd := match endAfterStartIdx with
    | some i => i + (strOf "<|end|>").length
    | none => buffer.length
  let messageWindow := (buffer.take windowEnd).drop windowStart
  let a0 := collectChannelText messageWindow (strOf "analysis")
  let f0 := collectChannelText messageWindow (strOf "final")
  let c0 := collectChannelText messageWindow (strOf "commentary")
  let incompleteContent := extractIncompleteContent messageWindow
  let hasActive : Bool := match ch with | some c => 0 < c.length | none => false
  let a1 := if 0 < incompleteContent.length ∧ hasActive ∧ ch = some (strOf "analysis") then
      (if 0 < a0.length then a0 ++ '\n' :: incompleteContent else incompleteContent) else a0
  let f1 := if 0 < incompleteContent.length ∧ hasActive ∧ ch = some (strOf "final") then
      (if 0 < f0.length then f0 ++ '\n' :: incompleteContent else incompleteContent) else f0
  let c1 := if 0 < incompleteContent.length ∧ hasActive ∧ ch = some (strOf "commentary") then
      (if 0 < c0.length then c0 ++ '\n' :: incompleteContent else incompleteContent) else c0
  let lastOnly := match ch with
    | some c => collectLastChannelText messageWindow c
    | none => []
  let a2 := if ch = some (strOf "analysis") ∧ 0 < lastOnly.length then lastOnly else a1
  let f2 := if ch = some (strOf "final") ∧ 0 < lastOnly.length then lastOnly else f1
  let c2 := if ch = some (strOf "commentary") ∧ 0 < lastOnly.length then lastOnly else c1
  let sc := countOccs buffer (strOf "<|start|>")
  let ec := countOccs buffer (strOf "<|end|>")
  { isComplete := sc == ec && 0 < sc
    currentAnalysis := a2
    currentFinal := f2
    currentCommentary := c2
    lastChannelDetected := ch
    bufferContent := buffer }

/-- `parseCurrentBuffer()`: returns the updated instance state together with
the snapshot. -/
def parseCurrentBuffer (st : StreamState) : StreamState × StreamParseResult :=
  let hasHarmonyMarkers :=
    strIncludes st.buffer (strOf "<|start|>") ||
    strIncludes st.buffer (strOf "<|channel|>") ||
    strIncludes st.buffer (strOf "<|message|>")
  if hasHarmonyMarkers then
    (⟨st.buffer, detectChannel st.buffer st.currentChannel⟩,
      buildSnapshot st.buffer (detectChannel st.buffer st.currentChannel))
  else
    (st, { isComplete := false
           currentAnalysis := []
           currentFinal := st.buffer
           currentCommentary := []
           lastChannelDetected := none
           bufferContent := st.buffer })

/-- `addContent(content)`. -/
def addContent (st : StreamState) (content : Str) : StreamState × StreamParseResult :=
  parseCurrentBuffer { st with buffer := st.buffer ++ content }

/-- Feeding a sequence of chunks from a given state, collecting every
returned snapshot in order. -/
def feedChunks : StreamState → List Str → StreamState × List StreamParseResult
  | st, [] => (st, [])
  | st, c :: cs =>
    let step := addContent st c
    let rest := feedChunks step.1 cs
    (rest.1, step.2 :: rest.2)

/-! ## Helper facts about tokens and enumerations -/

theorem roleOfStr_roleStr (r : HarmonyRole) : roleOfStr? (roleStr r) = some r := by
  cases r <;> rfl

theorem channelOfStr_channelStr (ch : HarmonyChannel) :
    channelOfStr? (channelStr ch) = some ch := by
  cases ch <;> rfl

theorem colon_not_mem_channelStr (ch : HarmonyChannel) : ':' ∉ channelStr ch := by
  cases ch <;> decide

theorem start_not_prefix_text (x : Str) :
    DEFAULT_DELIMS.start.isPrefixOf (strOf "text:" ++ x) = false := rfl

theorem start_not_prefix_tool (x : Str) :
    DEFAULT_DELIMS.start.isPrefixOf (strOf "tool:" ++ x) = false := rfl

theorem start_not_prefix_chan (x : Str) :
    DEFAULT_DELIMS.start.isPrefixOf (channelMarker ++ x) = false := rfl

theorem chan_not_prefix_text (x : Str) :
    channelMarker.isPrefixOf (strOf "text:" ++ x) = false := rfl

theorem chan_not_prefix_tool (x : Str) :
    channelMarker.isPrefixOf (strOf "tool:" ++ x) = false := rfl

theorem text_ne_message (x : Str) : strOf "text:" ++ x ≠ DEFAULT_DELIMS.message :=
  ne_cons_of_head _ _ (by decide)

theorem text_ne_end (x : Str) : strOf "text:" ++ x ≠ DEFAULT_DELIMS.endd :=
  ne_cons_of_head _ _ (by decide)

theorem tool_ne_message (x : Str) : strOf "tool:" ++ x ≠ DEFAULT_DELIMS.message :=
  ne_cons_of_head _ _ (by decide)

theorem tool_ne_end (x : Str) : strOf "tool:" ++ x ≠ DEFAULT_DELIMS.endd :=
  ne_cons_of_head _ _ (by decide)

theorem text_not_prefix_tool (x : Str) :
    (strOf "text:").isPrefixOf (strOf "tool:" ++ x) = false := rfl

/-! ## Claim C2 — channel-declaration tokens outside a message -/

/-- C2, counterexample: pushing the channel-declaration token
`"<|channel|>analysis"` into a fresh parser (no message open) does **not**
raise any error, contradicting the claim that a `ContentOutsideMessage`
error is raised. -/
theorem pushChannelNoMessage_counterexample :
    (pushToken initParseState (strOf "<|channel|>analysis") DEFAULT_DELIMS).2 = none ∧
    initParseState.current = none := ⟨rfl, rfl⟩

/-- C2, amended: a channel-declaration token pushed while no message is open
is handled by the channel branch before the open-message check; it never
raises, records the declared name when non-empty, and leaves the message
list and (absent) current message unchanged. -/
theorem pushChannelNoMessage (st : ParseState) (suffix : Str)
    (hcur : st.current = none) :
    pushToken st (channelMarker ++ suffix) DEFAULT_DELIMS =
      ({ st with lastStreamingChannel :=
          if 0 < suffix.length then some suffix else st.lastStreamingChannel }, none) ∧
    ((pushToken st (channelMarker ++ suffix) DEFAULT_DELIMS).1.current = none ∧
     (pushToken st (channelMarker ++ suffix) DEFAULT_DELIMS).1.messages = st.messages) := by
  have hmain : pushToken st (channelMarker ++ suffix) DEFAULT_DELIMS =
      ({ st with lastStreamingChannel :=
          if 0 < suffix.length then some suffix else st.lastStreamingChannel }, none) := by
    unfold pushToken
    rw [if_neg (by simp [start_not_prefix_chan]),
      if_pos (isPrefixOf_append_self channelMarker suffix), List.drop_left]
  refine ⟨hmain, ?_, ?_⟩
  · rw [hmain]
    simp [hcur]
  · rw [hmain]

/-- C2, witness for the amended statement at a concrete input. -/
theorem pushChannelNoMessage_witness :
    pushToken initParseState (channelMarker ++ strOf "analysis") DEFAULT_DELIMS =
      ({ initParseState with lastStreamingChannel :=
          if 0 < (strOf "analysis").length then some (strOf "analysis")
          else initParseState.lastStreamingChannel }, none) :=
  (pushChannelNoMessage initParseState (strOf "analysis") rfl).1

/-! ## Claim C4 — format detector -/

/-- C4: `isHarmonyFormat` is a total function that returns `false` on
undefined, null, non-string and empty-string inputs, and on a non-empty
string returns `true` exactly when the string (contains the start marker or
the channel marker), contains the channel marker, and (contains the message
marker or the end marker). -/
theorem isHarmonyFormat_spec (delims : HarmonyDelimiters) :
    (isHarmonyFormat .undef delims = false ∧
     isHarmonyFormat .null delims = false ∧
     isHarmonyFormat .nonString delims = false ∧
     isHarmonyFormat (.str []) delims = false) ∧
    ∀ s : Str, s ≠ [] →
      (isHarmonyFormat (.str s) delims = true ↔
        ((strIncludes s delims.start = true ∨ strIncludes s channelMarker = true) ∧
         strIncludes s channelMarker = true ∧
         (strIncludes s delims.message = true ∨ strIncludes s delims.endd = true))) := by
  refine ⟨⟨rfl, rfl, rfl, rfl⟩, ?_⟩
  intro s hs
  show (if s.length = 0 then false
    else (strIncludes s delims.start || strIncludes s channelMarker) &&
      strIncludes s channelMarker &&
      (strIncludes s delims.message || strIncludes s delims.endd)) = true ↔ _
  rw [if_neg (by simp [hs])]
  simp [Bool.and_eq_true, Bool.or_eq_true, and_assoc]

/-- C4, witness instantiating the non-empty-string case. -/
theorem isHarmonyFormat_spec_witness :
    isHarmonyFormat (.str (strOf "<|channel|>x<|message|>")) DEFAULT_DELIMS = true ↔
      ((strIncludes (strOf "<|channel|>x<|message|>") DEFAULT_DELIMS.start = true ∨
        strIncludes (strOf "<|channel|>x<|message|>") channelMarker = true) ∧
       strIncludes (strOf "<|channel|>x<|message|>") channelMarker = true ∧
       (strIncludes (strOf "<|channel|>x<|message|>") DEFAULT_DELIMS.message = true ∨
        strIncludes (strOf "<|channel|>x<|message|>") DEFAULT_DELIMS.endd = true)) :=
  (isHarmonyFormat_spec DEFAULT_DELIMS).2 _ (by decide)

/-! ## Claim C5 — `tryParseTokens` refines `parseTokens` -/

/-- C5: `tryParseTokens` succeeds with value `c` exactly when `parseTokens`
returns `c`, and fails with error `e` exactly when `parseTokens` throws that
very error. -/
theorem tryParseTokens_refines (tokens : List Str) (delims : HarmonyDelimiters) :
    (∀ c, tryParseTokens tokens delims = .ok c ↔ parseTokens tokens delims = .ok c) ∧
    (∀ e, tryParseTokens tokens delims = .err e ↔ parseTokens tokens delims = .error e) := by
  constructor
  · intro c
    unfold tryParseTokens
    cases h : parseTokens tokens delims <;> simp
  · intro e
    unfold tryParseTokens
    cases h : parseTokens tokens delims <;> simp

/-! ## Claim C9 — invalid-role push is atomic -/

/-- C9: pushing a start token whose role suffix is not a supported role
returns the `INVALID_ROLE` error with the input state unchanged; in
particular a later `finish()` sees exactly the state it would have seen
before the failed push. -/
theorem pushInvalidRole_atomic (st : ParseState) (suffix : Str)
    (h : roleOfStr? suffix = none) :
    pushToken st (DEFAULT_DELIMS.start ++ suffix) DEFAULT_DELIMS =
      (st, some ⟨strOf "INVALID_ROLE", strOf "Unknown role: " ++ suffix,
        [(strOf "token", DEFAULT_DELIMS.start ++ suffix), (strOf "role", suffix)]⟩) ∧
    finishParse (pushToken st (DEFAULT_DELIMS.start ++ suffix) DEFAULT_DELIMS).1 =
      finishParse st := by
  have hmain : pushToken st (DEFAULT_DELIMS.start ++ suffix) DEFAULT_DELIMS =
      (st, some ⟨strOf "INVALID_ROLE", strOf "Unknown role: " ++ suffix,
        [(strOf "token", DEFAULT_DELIMS.start ++ suffix), (strOf "role", suffix)]⟩) := by
    unfold pushToken
    rw [if_pos (isPrefixOf_append_self DEFAULT_DELIMS.start suffix), List.drop_left]
    simp only [h]
  exact ⟨hmain, by rw [hmain]⟩

/-- C9, witness: a parser holding an open user message with accumulated
content rejects `"<|start|>invalid"` and keeps the open message intact. -/
theorem pushInvalidRole_atomic_witness :
    pushToken ⟨[], some ⟨.user, [.text .message (strOf "Hi")]⟩, none, false⟩
        (DEFAULT_DELIMS.start ++ strOf "invalid") DEFAULT_DELIMS =
      (⟨[], some ⟨.user, [.text .message (strOf "Hi")]⟩, none, false⟩,
        some ⟨strOf "INVALID_ROLE", strOf "Unknown role: " ++ strOf "invalid",
          [(strOf "token", DEFAULT_DELIMS.start ++ strOf "invalid"),
           (strOf "role", strOf "invalid")]⟩) :=
  (pushInvalidRole_atomic _ _ (by decide)).1

/-! ## Claim C8 — the tokenizer -/

theorem idxOf_eq_zero_starts {s sub : Str} (h : idxOf s sub = some 0) :
    sub.isPrefixOf s = true := by
  unfold idxOf at h
  cases s with
  | nil =>
    unfold idxOfAux at h
    by_cases hsub : sub = []
    · subst hsub
      simp [List.isPrefixOf]
    · rw [if_neg hsub] at h
      exact absurd h (by simp)
  | cons c rest =>
    unfold idxOfAux at h
    by_cases hpre : sub.isPrefixOf (c :: rest) = true
    · exact hpre
    · rw [if_neg hpre] at h
      have := idxOfAux_ge sub rest 1 0 h
      omega

theorem foldl_min_ge (cs : List Nat) (c n : Nat) (hc : n ≤ c)
    (hall : ∀ x ∈ cs, n ≤ x) : n ≤ cs.foldl Nat.min c := by
  induction cs generalizing c with
  | nil => simpa using hc
  | cons a as ih =>
    simp only [List.foldl_cons]
    exact ih _ (le_min hc (hall a (by simp))) (fun x hx => hall x (by simp [hx]))

theorem findNextDelimiterIdx_pos (s : Str) (delims : HarmonyDelimiters)
    (hnil : s ≠ [])
    (h1 : ¬delims.start.isPrefixOf s = true)
    (h2 : ¬delims.message.isPrefixOf s = true)
    (h3 : ¬delims.endd.isPrefixOf s = true) :
    1 ≤ findNextDelimiterIdx s delims := by
  unfold findNextDelimiterIdx
  have hall : ∀ x ∈ ([idxOf s delims.start, idxOf s delims.message,
      idxOf s delims.endd].filterMap id), 1 ≤ x := by
    intro x hx
    rw [List.mem_filterMap] at hx
    obtain ⟨o, ho, hid⟩ := hx
    simp only [id] at hid
    subst hid
    rcases x with _ | x'
    · exfalso
      simp only [List.mem_cons, List.mem_singleton] at ho
      rcases ho with h | h | h | h
      · exact h1 (idxOf_eq_zero_starts h.symm)
      · exact h2 (idxOf_eq_zero_starts h.symm)
      · exact h3 (idxOf_eq_zero_starts h.symm)
      · simp at h
    · omega
  cases hm : ([idxOf s delims.start, idxOf s delims.message,
      idxOf s delims.endd].filterMap id) with
  | nil =>
    show 1 ≤ s.length
    have : 0 < s.length := List.length_pos.mpr hnil
    omega
  | cons c cs =>
    show 1 ≤ cs.foldl Nat.min c
    exact foldl_min_ge cs c 1 (hall c (by rw [hm]; simp))
      (fun x hx => hall x (by rw [hm]; simp [hx]))

/-- The tokenizer scan consumes at least one character per step under the
default delimiters, so any fuel beyond the input length computes the same
token list. -/
theorem tokenizeAux_fuel_irrel (n : Nat) : ∀ (s : Str), s.length ≤ n →
    ∀ (f1 f2 : Nat), s.length < f1 → s.length < f2 →
    tokenizeAux DEFAULT_DELIMS f1 s = tokenizeAux DEFAULT_DELIMS f2 s := by
  induction n with
  | zero =>
    intro s hs f1 f2 hf1 hf2
    have hsnil : s = [] := List.length_eq_zero.mp (by omega)
    subst hsnil
    cases f1 with
    | zero => omega
    | succ g1 =>
      cases f2 with
      | zero => omega
      | succ g2 => simp [tokenizeAux]
  | succ n ih =>
    intro s hs f1 f2 hf1 hf2
    cases f1 with
    | zero => omega
    | succ g1 =>
      cases f2 with
      | zero => omega
      | succ g2 =>
        by_cases hnil : s = []
        · subst hnil
          simp [tokenizeAux]
        · have hpos : 0 < s.length := List.length_pos.mpr hnil
          have h9 : DEFAULT_DELIMS.start.length = 9 := rfl
          have h11 : DEFAULT_DELIMS.message.length = 11 := rfl
          have h7 : DEFAULT_DELIMS.endd.length = 7 := rfl
          rw [tokenizeAux, tokenizeAux, if_neg hnil, if_neg hnil]
          by_cases hst : DEFAULT_DELIMS.start.isPrefixOf s = true
          · rw [if_pos hst, if_pos hst]
            congr 1
            apply ih
            · simp only [List.length_drop]
              omega
            · simp only [List.length_drop]
              omega
            · simp only [List.length_drop]
              omega
          · rw [if_neg hst, if_neg hst]
            by_cases hmsg : DEFAULT_DELIMS.message.isPrefixOf s = true
            · rw [if_pos hmsg, if_pos hmsg]
              congr 1
              apply ih
              · simp only [List.length_drop]
                omega
              · simp only [List.length_drop]
                omega
              · simp only [List.length_drop]
                omega
            · rw [if_neg hmsg, if_neg hmsg]
              by_cases hend : DEFAULT_DELIMS.endd.isPrefixOf s = true
              · rw [if_pos hend, if_pos hend]
                congr 1
                apply ih
                · simp only [List.length_drop]
                  omega
                · simp only [List.length_drop]
                  omega
                · simp only [List.length_drop]
                  omega
              · rw [if_neg hend, if_neg hend]
                have hfn := findNextDelimiterIdx_pos s DEFAULT_DELIMS hnil hst hmsg hend
                congr 1
                apply ih
                · simp only [List.length_drop]
                  omega
                · simp only [List.length_drop]
                  omega
                · simp only [List.length_drop]
                  omega

/-- C8: the tokenizer is total — its scan is insensitive to any extra fuel
beyond the input length, so every input yields a definite token list — and
on `"<|start|>user<|message|>Hello<|end|>"` it yields exactly the four
tokens `["<|start|>user", "<|message|>", "Hello", "<|end|>"]`. -/
theorem tokenizeCompletionString_spec :
    (∀ (input : Str) (extra : Nat),
      tokenizeAux DEFAULT_DELIMS (input.length + 1 + extra) input =
        tokenizeCompletionString input DEFAULT_DELIMS) ∧
    tokenizeCompletionString (strOf "<|start|>user<|message|>Hello<|end|>") DEFAULT_DELIMS =
      [strOf "<|start|>user", strOf "<|message|>", strOf "Hello", strOf "<|end|>"] := by
  constructor
  · intro input extra
    exact tokenizeAux_fuel_irrel input.length input le_rfl _ _ (by omega) (by omega)
  · decide

/-! ## Claim C3 — completeness of the stream snapshot -/

theorem buildSnapshot_isComplete (b : Str) (ch : Option Str) :
    (buildSnapshot b ch).isComplete =
      (countOccs b (strOf "<|start|>") == countOccs b (strOf "<|end|>") &&
        decide (0 < countOccs b (strOf "<|start|>"))) := rfl

/-- C3: the snapshot returned by `addContent` is complete exactly when the
number of `"<|start|>"` occurrences in the whole accumulated buffer equals
the number of `"<|end|>"` occurrences and is positive; and on the concrete
scenario completeness goes `false`, `false`, `true` — not monotone in
buffer length. -/
theorem addContent_isComplete_iff :
    (∀ (st : StreamState) (content : Str),
      ((addContent st content).2.isComplete = true ↔
        (countOccs (st.buffer ++ content) (strOf "<|start|>") =
            countOccs (st.buffer ++ content) (strOf "<|end|>") ∧
         0 < countOccs (st.buffer ++ content) (strOf "<|start|>")))) ∧
    ((addContent initStream
        (strOf "<|start|>one<|start|>two<|message|>content")).2.isComplete = false ∧
     (addContent (addContent initStream
        (strOf "<|start|>one<|start|>two<|message|>content")).1
        (strOf "<|end|>")).2.isComplete = false ∧
     (addContent (addContent (addContent initStream
        (strOf "<|start|>one<|start|>two<|message|>content")).1
        (strOf "<|end|>")).1 (strOf "<|end|>")).2.isComplete = true) := by
  constructor
  · intro st content
    unfold addContent parseCurrentBuffer
    by_cases hmk : (strIncludes (st.buffer ++ content) (strOf "<|start|>") ||
        strIncludes (st.buffer ++ content) (strOf "<|channel|>") ||
        strIncludes (st.buffer ++ content) (strOf "<|message|>")) = true
    · rw [if_pos hmk]
      simp only [buildSnapshot_isComplete]
      simp [Bool.and_eq_true, beq_iff_eq]
    · rw [if_neg hmk]
      simp only [Bool.or_eq_true, not_or] at hmk
      have hstart : strIncludes (st.buffer ++ content) (strOf "<|start|>") = false := by
        have := hmk.1.1
        simp only [Bool.not_eq_true] at this ⊢
        exact this
      have hz : countOccs (st.buffer ++ content) (strOf "<|start|>") = 0 :=
        countOccs_eq_zero_of_not_includes hstart
      constructor
      · intro habs
        exact absurd habs (by simp)
      · intro ⟨_, hpos⟩
        rw [hz] at hpos
        omega
  · exact ⟨by decide, by decide, by decide⟩

/-! ## Claim C6 — buffer accumulation -/

theorem parseCurrentBuffer_buffer (st : StreamState) :
    (parseCurrentBuffer st).1.buffer = st.buffer ∧
    (parseCurrentBuffer st).2.bufferContent = st.buffer := by
  unfold parseCurrentBuffer
  by_cases hmk : (strIncludes st.buffer (strOf "<|start|>") ||
      strIncludes st.buffer (strOf "<|channel|>") ||
      strIncludes st.buffer (strOf "<|message|>")) = true
  · rw [if_pos hmk]
    exact ⟨rfl, rfl⟩
  · rw [if_neg hmk]
    exact ⟨rfl, rfl⟩

theorem feedChunks_buffer (chunks : List Str) : ∀ (st : StreamState),
    (feedChunks st chunks).1.buffer = st.buffer ++ chunks.flatten ∧
    (∀ (i : Nat) (r : StreamParseResult), (feedChunks st chunks).2.get? i = some r →
      r.bufferContent = st.buffer ++ (chunks.take (i + 1)).flatten) := by
  induction chunks with
  | nil =>
    intro st
    constructor
    · simp [feedChunks]
    · intro i r hr
      simp [feedChunks] at hr
  | cons c cs ih =>
    intro st
    have hstep := parseCurrentBuffer_buffer { st with buffer := st.buffer ++ c }
    constructor
    · show (feedChunks (addContent st c).1 cs).1.buffer = _
      rw [(ih (addContent st c).1).1]
      unfold addContent
      rw [hstep.1]
      simp [List.append_assoc]
    · intro i r hr
      cases i with
      | zero =>
        have : (feedChunks st (c :: cs)).2.get? 0 = some (addContent st c).2 := rfl
        rw [this] at hr
        injection hr with hr
        subst hr
        unfold addContent
        rw [hstep.2]
        simp
      | succ j =>
        have : (feedChunks st (c :: cs)).2.get? (j + 1) =
            (feedChunks (addContent st c).1 cs).2.get? j := rfl
        rw [this] at hr
        have := (ih (addContent st c).1).2 j r hr
        rw [this]
        unfold addContent
        rw [hstep.1]
        simp [List.append_assoc]

/-- C6: after any sequence of additions the raw buffer retrieved by
`getBuffer` is the concatenation of all added chunks in order, and the
snapshot returned by the `i`-th addition reports exactly the concatenation
of the chunks added up to and including it. -/
theorem buffer_accumulation (chunks : List Str) :
    getBuffer (feedChunks initStream chunks).1 = chunks.flatten ∧
    (∀ (i : Nat) (r : StreamParseResult), (feedChunks initStream chunks).2.get? i = some r →
      r.bufferContent = (chunks.take (i + 1)).flatten) := by
  have h := feedChunks_buffer chunks initStream
  constructor
  · show (feedChunks initStream chunks).1.buffer = chunks.flatten
    rw [h.1]
    rfl
  · intro i r hr
    have := h.2 i r hr
    rw [this]
    rfl

/-- C6, witness at a concrete chunk sequence. -/
theorem buffer_accumulation_witness :
    getBuffer (feedChunks initStream [strOf "ab", strOf "c"]).1 = strOf "abc" ∧
    (addContent initStream (strOf "ab")).2.bufferContent =
      (([strOf "ab", strOf "c"]).take (0 + 1)).flatten := by
  constructor
  · exact (buffer_accumulation [strOf "ab", strOf "c"]).1.trans (by decide)
  · exact (buffer_accumulation [strOf "ab", strOf "c"]).2 0 _ rfl

/-! ## Claim C7 — `extractFinalContent` -/

/-- C7: on a Harmony-formatted input with no `"<|channel|>final"` tag,
`extractFinalContent` returns the commentary channel's extracted text; on an
input not detected as Harmony format it returns the input verbatim; and both
behaviours on the concrete scenario inputs. -/
theorem extractFinalContent_spec :
    (∀ s : Str, isHarmonyFormat (.str s) DEFAULT_DELIMS = true →
      strIncludes s (channelMarker ++ strOf "final") = false →
      extractFinalContent s = safeExtractChannel s (strOf "commentary")) ∧
    (∀ s : Str, isHarmonyFormat (.str s) DEFAULT_DELIMS = false →
      extractFinalContent s = s) ∧
    extractFinalContent
      (strOf "<|start|>assistant<|channel|>commentary<|message|>Note here<|end|>") =
      strOf "Note here" ∧
    extractFinalContent (strOf "plain text") = strOf "plain text" := by
  refine ⟨?_, ?_, by decide, by decide⟩
  · intro s hf hnofinal
    unfold extractFinalContent
    rw [if_pos hf]
    have hfinal : safeExtractChannel s (strOf "final") = [] := by
      simp only [safeExtractChannel, lastIdxOf_eq_none_of_not_includes hnofinal]
    rw [hfinal]
    simp only [List.length_nil, lt_irrefl, if_false]
    cases hc : safeExtractChannel s (strOf "commentary") with
    | nil => simp
    | cons a l => simp
  · intro s h
    unfold extractFinalContent
    rw [if_neg (by simp [h])]

/-- C7, witness instantiating both hypothesised parts. -/
theorem extractFinalContent_spec_witness :
    extractFinalContent
        (strOf "<|start|>assistant<|channel|>commentary<|message|>Note here<|end|>") =
      safeExtractChannel
        (strOf "<|start|>assistant<|channel|>commentary<|message|>Note here<|end|>")
        (strOf "commentary") ∧
    extractFinalContent (strOf "plain text") = strOf "plain text" :=
  ⟨extractFinalContent_spec.1 _ (by decide) (by decide),
   extractFinalContent_spec.2.1 _ (by decide)⟩

/-! ## Claim C10 — the snapshot is a pure function of the buffer -/

theorem chanMatchAt_append {s : Str} {p : Nat} (t : Str)
    (h : chanMatchAt s p = true) : chanMatchAt (s ++ t) p = true := by
  unfold chanMatchAt at h ⊢
  rw [Bool.and_eq_true] at h ⊢
  obtain ⟨hpre, hnext⟩ := h
  refine ⟨occursAt_append_right t hpre, ?_⟩
  cases hd : s.drop (p + channelMarker.length) with
  | nil => rw [hd] at hnext; exact absurd hnext (by simp)
  | cons c cs =>
    rw [hd] at hnext
    rw [List.drop_append_eq_append_drop, hd]
    exact hnext

theorem lastChanIdx_isSome_any (s : Str) :
    (lastChanIdx s).isSome = (List.range (s.length + 1)).any (chanMatchAt s) := by
  unfold lastChanIdx
  rw [foldl_option_isSome]
  simp

theorem lastChanIdx_sat {s : Str} {p : Nat} (h : lastChanIdx s = some p) :
    chanMatchAt s p = true := by
  rcases foldl_option_sat (chanMatchAt s) (List.range (s.length + 1)) none p h with h1 | h2
  · exact h1
  · exact absurd h2 (by simp)

theorem lastChanIdx_append_isSome {s : Str} (t : Str)
    (h : (lastChanIdx s).isSome = true) : (lastChanIdx (s ++ t)).isSome = true := by
  rw [lastChanIdx_isSome_any] at h ⊢
  rw [List.any_eq_true] at h ⊢
  obtain ⟨p, hp, hm⟩ := h
  refine ⟨p, ?_, chanMatchAt_append t hm⟩
  rw [List.mem_range] at hp ⊢
  simp only [List.length_append]
  omega

theorem capture_pos {s : Str} {p : Nat} (h : chanMatchAt s p = true) :
    0 < ((s.drop (p + channelMarker.length)).takeWhile isChanNameChar).length := by
  unfold chanMatchAt at h
  rw [Bool.and_eq_true] at h
  obtain ⟨_, hnext⟩ := h
  cases hd : s.drop (p + channelMarker.length) with
  | nil => rw [hd] at hnext; exact absurd hnext (by simp)
  | cons c cs =>
    rw [hd] at hnext
    have hc : isChanNameChar c = true := hnext
    rw [List.takeWhile_cons, if_pos hc]
    simp

theorem detectChannel_self (b : Str) :
    detectChannel b (chanOfBuffer b) = chanOfBuffer b := by
  cases h : lastChanIdx b with
  | none => simp only [detectChannel, chanOfBuffer, h]
  | some p =>
    simp only [detectChannel, chanOfBuffer, h,
      if_pos (capture_pos (lastChanIdx_sat h))]

theorem chanOfBuffer_append (p t : Str) :
    detectChannel (p ++ t) (chanOfBuffer p) = chanOfBuffer (p ++ t) := by
  cases h : lastChanIdx (p ++ t) with
  | none =>
    have hpnone : chanOfBuffer p = none := by
      cases h2 : lastChanIdx p with
      | none => simp only [chanOfBuffer, detectChannel, h2]
      | some q =>
        exfalso
        have := lastChanIdx_append_isSome t (by rw [h2]; rfl)
        rw [h] at this
        exact absurd this (by simp)
    rw [hpnone]
    simp only [detectChannel, chanOfBuffer, h]
  | some q =>
    simp only [detectChannel, chanOfBuffer, h,
      if_pos (capture_pos (lastChanIdx_sat h))]

theorem chanOfBuffer_none_of_no_marker {b : Str}
    (h : strIncludes b channelMarker = false) : chanOfBuffer b = none := by
  have hall := strIncludes_false_iff.mp h
  have hnone : lastChanIdx b = none := by
    have hsome := lastChanIdx_isSome_any b
    rw [List.any_eq_false.mpr ?_] at hsome
    · exact Option.not_isSome_iff_eq_none.mp (by simp [hsome])
    · intro p _
      unfold chanMatchAt
      rw [Bool.and_eq_true]
      intro ⟨hpre, _⟩
      have := hall p
      unfold occursAt at this
      rw [this] at hpre
      exact absurd hpre (by simp)
  unfold chanOfBuffer detectChannel
  rw [hnone]

/-- A push of new content behaves exactly like recomputation from the
normalized state whose detected channel is derived from the buffer alone. -/
theorem addContent_pure (st : StreamState) (c : Str)
    (hinv : st.currentChannel = chanOfBuffer st.buffer) :
    addContent st c =
      parseCurrentBuffer ⟨st.buffer ++ c, chanOfBuffer (st.buffer ++ c)⟩ := by
  obtain ⟨buf, cc⟩ := st
  simp only at hinv
  unfold addContent parseCurrentBuffer
  by_cases hmk : (strIncludes (buf ++ c) (strOf "<|start|>") ||
      strIncludes (buf ++ c) (strOf "<|channel|>") ||
      strIncludes (buf ++ c) (strOf "<|message|>")) = true
  · rw [if_pos hmk, if_pos hmk]
    rw [hinv, chanOfBuffer_append, detectChannel_self]
  · rw [if_neg hmk, if_neg hmk]
    have hchan : strIncludes (buf ++ c) channelMarker = false := by
      simp only [Bool.or_eq_true, not_or, Bool.not_eq_true] at hmk
      exact hmk.1.2
    have hbufchan : strIncludes buf channelMarker = false := by
      by_cases hb : strIncludes buf channelMarker = true
      · rw [strIncludes_append_right c hb] at hchan
        exact absurd hchan (by simp)
      · simpa using hb
    have hcc : cc = chanOfBuffer (buf ++ c) := by
      rw [hinv, chanOfBuffer_none_of_no_marker hbufchan,
        chanOfBuffer_none_of_no_marker hchan]
    rw [hcc]

theorem parseCurrentBuffer_norm_state (b : Str) :
    (parseCurrentBuffer ⟨b, chanOfBuffer b⟩).1 = ⟨b, chanOfBuffer b⟩ := by
  unfold parseCurrentBuffer
  by_cases hmk : (strIncludes b (strOf "<|start|>") ||
      strIncludes b (strOf "<|channel|>") ||
      strIncludes b (strOf "<|message|>")) = true
  · rw [if_pos hmk]
    show (⟨b, detectChannel b (chanOfBuffer b)⟩ : StreamState) = ⟨b, chanOfBuffer b⟩
    rw [detectChannel_self]
  · rw [if_neg hmk]

/-- The last snapshot of a fed chunk sequence depends only on the
concatenated buffer. -/
theorem feedChunks_getLast (cs : List Str) : ∀ (st : StreamState),
    st.currentChannel = chanOfBuffer st.buffer → cs ≠ [] →
    (feedChunks st cs).2.getLast? =
      some ((parseCurrentBuffer
        ⟨st.buffer ++ cs.flatten, chanOfBuffer (st.buffer ++ cs.flatten)⟩).2) := by
  induction cs with
  | nil => intro st _ h; exact absurd rfl h
  | cons c cs ih =>
    intro st hinv _
    have hstep : addContent st c =
        parseCurrentBuffer ⟨st.buffer ++ c, chanOfBuffer (st.buffer ++ c)⟩ :=
      addContent_pure st c hinv
    have hstate : (addContent st c).1 = ⟨st.buffer ++ c, chanOfBuffer (st.buffer ++ c)⟩ := by
      rw [hstep, parseCurrentBuffer_norm_state]
    by_cases hcs : cs = []
    · subst hcs
      show ((addContent st c).2 :: []).getLast? = _
      rw [List.getLast?_singleton, hstep]
      simp
    · have hinv' : (addContent st c).1.currentChannel =
          chanOfBuffer (addContent st c).1.buffer := by
        rw [hstate]
      have := ih (addContent st c).1 hinv' hcs
      show ((addContent st c).2 :: (feedChunks (addContent st c).1 cs).2).getLast? = _
      cases hr : (feedChunks (addContent st c).1 cs).2 with
      | nil =>
        rw [hr] at this
        exact absurd this (by simp)
      | cons x xs =>
        rw [hr] at this
        rw [List.getLast?_cons_cons, this, hstate]
        simp [List.append_assoc]

/-- C10: `reset` restores the freshly-constructed state, and the snapshot
returned by the latest `addContent` of any nonempty chunk sequence fed from a
fresh extractor depends only on the concatenation of the chunks: sequences
with equal concatenations yield equal snapshots in every field. -/
theorem snapshot_pure_function_of_buffer :
    (∀ st, resetStream st = initStream) ∧
    ∀ (cs1 cs2 : List Str), cs1 ≠ [] → cs2 ≠ [] → cs1.flatten = cs2.flatten →
      (feedChunks initStream cs1).2.getLast? = (feedChunks initStream cs2).2.getLast? := by
  refine ⟨fun _ => rfl, ?_⟩
  intro cs1 cs2 h1 h2 hj
  rw [feedChunks_getLast cs1 initStream rfl h1,
    feedChunks_getLast cs2 initStream rfl h2, hj]

/-- C10, witness: the same buffer split differently across additions yields
the same latest snapshot. -/
theorem snapshot_pure_function_of_buffer_witness :
    (feedChunks initStream [strOf "<|channel|>ana", strOf "lysis<|message|>Hi"]).2.getLast? =
      (feedChunks initStream [strOf "<|channel|>analysis<|message|>Hi"]).2.getLast? :=
  snapshot_pure_function_of_buffer.2 _ _ (by decide) (by decide) (by decide)

/-! ## Claim C1 — render / strict-parse round trip -/

/-- The claim's hypotheses on one chunk: tool-call arguments must survive the
JSON round trip, and (the amendment forced by `roundTrip_counterexample`)
namespaces and names must not contain the `':'` separator. -/
def chunkOk : HarmonyContentChunk → Prop
  | .text _ _ => True
  | .tool_call call =>
      ':' ∉ call.nmspace ∧ ':' ∉ call.name ∧
      Json.parse (Json.stringify call.arguments) = some call.arguments

theorem pushStart (ms : List HarmonyMessage) (lsc : Option Str) (ep : Bool)
    (r : HarmonyRole) :
    pushToken ⟨ms, none, lsc, ep⟩ (DEFAULT_DELIMS.start ++ roleStr r) DEFAULT_DELIMS =
      (⟨ms, some ⟨r, []⟩, none, false⟩, none) := by
  unfold pushToken
  rw [if_pos (isPrefixOf_append_self _ _), List.drop_left]
  simp only [roleOfStr_roleStr]

theorem pushMsgMarker (ms : List HarmonyMessage) (cur : HarmonyMessage)
    (lsc : Option Str) (ep : Bool) :
    pushToken ⟨ms, some cur, lsc, ep⟩ DEFAULT_DELIMS.message DEFAULT_DELIMS =
      (⟨ms, some cur, lsc, true⟩, none) := by
  unfold pushToken
  rw [if_neg (by decide), if_neg (by decide), if_pos rfl]

theorem pushEnd (ms : List HarmonyMessage) (cur : HarmonyMessage)
    (lsc : Option Str) (ep : Bool) :
    pushToken ⟨ms, some cur, lsc, ep⟩ DEFAULT_DELIMS.endd DEFAULT_DELIMS =
      (⟨ms ++ [cur], none, none, false⟩, none) := by
  unfold pushToken
  rw [if_neg (by decide), if_neg (by decide), if_neg (by decide), if_pos rfl]

theorem pushTextPayload (ms : List HarmonyMessage) (role : HarmonyRole)
    (content : List HarmonyContentChunk) (lsc : Option Str)
    (ch : HarmonyChannel) (t : Str) :
    pushToken ⟨ms, some ⟨role, content⟩, lsc, true⟩
        (strOf "text:" ++ (channelStr ch ++ ':' :: t)) DEFAULT_DELIMS =
      (⟨ms, some ⟨role, content ++ [.text ch t]⟩, lsc, false⟩, none) := by
  have hidx : idxOf (channelStr ch ++ ':' :: t) (strOf ":") = some (channelStr ch).length := by
    unfold idxOf
    rw [idxOfAux_colon t (channelStr ch) 0 (colon_not_mem_channelStr ch)]
    simp
  have hdrop : (channelStr ch ++ ':' :: t).drop ((channelStr ch).length + 1) = t := by
    rw [show channelStr ch ++ ':' :: t = (channelStr ch ++ [':']) ++ t by simp,
      show (channelStr ch).length + 1 = (channelStr ch ++ [':']).length by simp]
    exact List.drop_left _ _
  unfold pushToken
  simp [start_not_prefix_text, chan_not_prefix_text, text_ne_message, text_ne_end,
    isPrefixOf_append_self, List.drop_left, hidx, List.take_left, hdrop,
    channelOfStr_channelStr]

theorem pushToolPayload (ms : List HarmonyMessage) (role : HarmonyRole)
    (content : List HarmonyContentChunk) (lsc : Option Str)
    (ns nm : Str) (args : Json)
    (hns : ':' ∉ ns) (hnm : ':' ∉ nm)
    (hargs : Json.parse (Json.stringify args) = some args) :
    pushToken ⟨ms, some ⟨role, content⟩, lsc, true⟩
        (strOf "tool:" ++ (ns ++ ':' :: (nm ++ ':' :: Json.stringify args))) DEFAULT_DELIMS =
      (⟨ms, some ⟨role, content ++ [.tool_call ⟨ns, nm, args⟩]⟩, lsc, false⟩, none) := by
  have hfirst : idxOf (ns ++ ':' :: (nm ++ ':' :: Json.stringify args)) (strOf ":") =
      some ns.length := by
    unfold idxOf
    rw [idxOfAux_colon _ ns 0 hns]
    simp
  have hdrop1 : (ns ++ ':' :: (nm ++ ':' :: Json.stringify args)).drop (ns.length + 1) =
      nm ++ ':' :: Json.stringify args := by
    rw [show ns ++ ':' :: (nm ++ ':' :: Json.stringify args) =
        (ns ++ [':']) ++ (nm ++ ':' :: Json.stringify args) by simp,
      show ns.length + 1 = (ns ++ [':']).length by simp]
    exact List.drop_left _ _
  have hsecond : idxOfFrom (ns ++ ':' :: (nm ++ ':' :: Json.stringify args)) (strOf ":")
      (ns.length + 1) = some (ns.length + 1 + nm.length) := by
    unfold idxOfFrom
    rw [hdrop1, idxOfAux_colon _ nm 0 hnm]
    simp
  have htake : (ns ++ ':' :: (nm ++ ':' :: Json.stringify args)).take
      (ns.length + 1 + nm.length) = (ns ++ [':']) ++ nm := by
    rw [show ns ++ ':' :: (nm ++ ':' :: Json.stringify args) =
        ((ns ++ [':']) ++ nm) ++ (':' :: Json.stringify args) by simp,
      show ns.length + 1 + nm.length = ((ns ++ [':']) ++ nm).length by simp; omega]
    exact List.take_left _ _
  have hname : ((ns ++ [':']) ++ nm).drop (ns.length + 1) = nm := by
    rw [show ns.length + 1 = (ns ++ [':']).length by simp]
    exact List.drop_left _ _
  have hargsRaw : (ns ++ ':' :: (nm ++ ':' :: Json.stringify args)).drop
      (ns.length + 1 + nm.length + 1) = Json.stringify args := by
    rw [show ns ++ ':' :: (nm ++ ':' :: Json.stringify args) =
        ((ns ++ [':']) ++ (nm ++ [':'])) ++ Json.stringify args by simp,
      show ns.length + 1 + nm.length + 1 = ((ns ++ [':']) ++ (nm ++ [':'])).length by
        simp; omega]
    exact List.drop_left _ _
  unfold pushToken
  simp [start_not_prefix_tool, chan_not_prefix_tool, tool_ne_message, tool_ne_end,
    text_not_prefix_tool, isPrefixOf_append_self, List.drop_left, hfirst, hsecond,
    List.take_left, htake, hname, hargsRaw, hargs]

theorem chunkPayloadToken_text (ch : HarmonyChannel) (t : Str) :
    chunkPayloadToken (.text ch t) = strOf "text:" ++ (channelStr ch ++ ':' :: t) := by
  simp [chunkPayloadToken, List.append_assoc]

theorem chunkPayloadToken_tool (ns nm : Str) (args : Json) :
    chunkPayloadToken (.tool_call ⟨ns, nm, args⟩) =
      strOf "tool:" ++ (ns ++ ':' :: (nm ++ ':' :: Json.stringify args)) := by
  simp [chunkPayloadToken, List.append_assoc]

/-- One successful push step of the `parseTokens` loop. -/
theorem go_cons_ok {st st' : ParseState} {t : Str} {ts : List Str}
    (h : pushToken st t DEFAULT_DELIMS = (st', none)) :
    parseTokensGo DEFAULT_DELIMS st (t :: ts) = parseTokensGo DEFAULT_DELIMS st' ts := by
  show (match pushToken st t DEFAULT_DELIMS with
    | (st', none) => parseTokensGo DEFAULT_DELIMS st' ts
    | (_, some e) => Except.error e) = parseTokensGo DEFAULT_DELIMS st' ts
  rw [h]

theorem goChunks (chunks : List HarmonyContentChunk) :
    ∀ (ms : List HarmonyMessage) (role : HarmonyRole)
      (content : List HarmonyContentChunk) (rest : List Str),
    (∀ c ∈ chunks, chunkOk c) →
    parseTokensGo DEFAULT_DELIMS ⟨ms, some ⟨role, content⟩, none, false⟩
        (chunks.flatMap (fun c => [DEFAULT_DELIMS.message, chunkPayloadToken c]) ++ rest) =
      parseTokensGo DEFAULT_DELIMS ⟨ms, some ⟨role, content ++ chunks⟩, none, false⟩ rest := by
  induction chunks with
  | nil =>
    intro ms role content rest _
    simp
  | cons c cs ih =>
    intro ms role content rest hok
    have hc := hok c (by simp)
    have hcs : ∀ x ∈ cs, chunkOk x := fun x hx => hok x (by simp [hx])
    cases c with
    | text ch t =>
      simp only [List.flatMap_cons, List.cons_append, List.append_assoc,
        List.nil_append, chunkPayloadToken_text]
      rw [go_cons_ok (pushMsgMarker ms ⟨role, content⟩ none false),
        go_cons_ok (pushTextPayload ms role content none ch t)]
      rw [ih ms role (content ++ [HarmonyContentChunk.text ch t]) rest hcs]
      rw [← List.append_cons]
    | tool_call call =>
      obtain ⟨ns, nm, args⟩ := call
      obtain ⟨hns, hnm, hargs⟩ := hc
      simp only [List.flatMap_cons, List.cons_append, List.append_assoc,
        List.nil_append, chunkPayloadToken_tool]
      rw [go_cons_ok (pushMsgMarker ms ⟨role, content⟩ none false),
        go_cons_ok (pushToolPayload ms role content none ns nm args hns hnm hargs)]
      rw [ih ms role (content ++ [HarmonyContentChunk.tool_call ⟨ns, nm, args⟩]) rest hcs]
      rw [← List.append_cons]

theorem goMessage (m : HarmonyMessage) (ms : List HarmonyMessage)
    (lsc : Option Str) (ep : Bool) (rest : List Str)
    (hok : ∀ c ∈ m.content, chunkOk c) :
    parseTokensGo DEFAULT_DELIMS ⟨ms, none, lsc, ep⟩
        (messageTokens DEFAULT_DELIMS m ++ rest) =
      parseTokensGo DEFAULT_DELIMS ⟨ms ++ [m], none, none, false⟩ rest := by
  obtain ⟨role, content⟩ := m
  show parseTokensGo DEFAULT_DELIMS ⟨ms, none, lsc, ep⟩
      (((DEFAULT_DELIMS.start ++ roleStr role)
        :: (content.flatMap (fun c => [DEFAULT_DELIMS.message, chunkPayloadToken c])
          ++ [DEFAULT_DELIMS.endd])) ++ rest) = _
  rw [List.cons_append, go_cons_ok (pushStart ms lsc ep role), List.append_assoc,
    List.singleton_append]
  rw [goChunks content ms role [] (DEFAULT_DELIMS.endd :: rest) hok]
  rw [go_cons_ok (pushEnd ms ⟨role, [] ++ content⟩ none false)]
  simp

theorem goConversation (msgs : List HarmonyMessage) :
    ∀ (ms : List HarmonyMessage),
    (∀ m ∈ msgs, ∀ c ∈ m.content, chunkOk c) →
    parseTokensGo DEFAULT_DELIMS ⟨ms, none, none, false⟩
        (msgs.flatMap (messageTokens DEFAULT_DELIMS)) = .ok ⟨ms ++ msgs⟩ := by
  induction msgs with
  | nil =>
    intro ms _
    simp [parseTokensGo, finishParse]
  | cons m rest ih =>
    intro ms hok
    rw [List.flatMap_cons,
      goMessage m ms none false _ (hok m (by simp)),
      ih (ms ++ [m]) (fun x hx => hok x (by simp [hx]))]
    simp

/-- C1, counterexample to the claim as stated: a conversation whose only
chunk is a tool call with namespace `"a:b"` (and arguments `null`, which
round-trip losslessly through JSON) does **not** survive render-then-parse —
the parser splits the tool token at the wrong separators and fails on
`"c:null"` as JSON. -/
theorem roundTrip_counterexample :
    Json.parse (Json.stringify Json.null) = some Json.null ∧
    parseTokens (renderConversation
        ⟨[⟨.user, [.tool_call ⟨strOf "a:b", strOf "c", Json.null⟩]⟩]⟩ DEFAULT_DELIMS)
        DEFAULT_DELIMS ≠
      Except.ok ⟨[⟨.user, [.tool_call ⟨strOf "a:b", strOf "c", Json.null⟩]⟩]⟩ := by
  refine ⟨rfl, ?_⟩
  intro h
  have hval : (match parseTokens (renderConversation
      ⟨[⟨.user, [.tool_call ⟨strOf "a:b", strOf "c", Json.null⟩]⟩]⟩ DEFAULT_DELIMS)
      DEFAULT_DELIMS with
    | Except.ok _ => true
    | Except.error _ => false) = false := rfl
  rw [h] at hval
  exact absurd hval (by simp)

/-- C1, amended: for every conversation built from the supported roles and
structured channels whose tool calls have colon-free namespaces and names
and arguments that survive the lossless JSON round trip, rendering with the
default delimiters and strict-parsing with the same delimiters reproduces
the conversation exactly. -/
theorem renderParse_roundTrip (conv : HarmonyConversation)
    (hok : ∀ m ∈ conv.messages, ∀ c ∈ m.content, chunkOk c) :
    parseTokens (renderConversation conv DEFAULT_DELIMS) DEFAULT_DELIMS =
      Except.ok conv := by
  obtain ⟨msgs⟩ := conv
  unfold parseTokens renderConversation initParseState
  rw [goConversation msgs [] hok]
  simp

/-- C1, witness: a two-message conversation with text and tool-call chunks
satisfies the hypotheses and round-trips. -/
theorem renderParse_roundTrip_witness :
    parseTokens (renderConversation
        ⟨[⟨.user, [.text .message (strOf "Hi")]⟩,
          ⟨.assistant, [.tool_call ⟨strOf "math", strOf "add",
            Json.arr [Json.num 1, Json.num 2]⟩]⟩]⟩ DEFAULT_DELIMS) DEFAULT_DELIMS =
      Except.ok
        ⟨[⟨.user, [.text .message (strOf "Hi")]⟩,
          ⟨.assistant, [.tool_call ⟨strOf "math", strOf "add",
            Json.arr [Json.num 1, Json.num 2]⟩]⟩]⟩ := by
  apply renderParse_roundTrip
  intro m hm c hc
  simp only [List.mem_cons, List.not_mem_nil, or_false] at hm
  rcases hm with rfl | rfl
  · simp only [List.mem_cons, List.not_mem_nil, or_false] at hc
    rw [hc]
    exact trivial
  · simp only [List.mem_cons, List.not_mem_nil, or_false] at hc
    rw [hc]
    exact ⟨by decide, by decide, rfl⟩

end Harmony
